import Mathlib

/-!
Verification development for McCrackn's Prime Law
(`mccrackns_prime_law.py`, `numbers_domains.py`, `mpl_stream.py`).

The Python code is shallowly embedded: pure functions become Lean
functions, the stateful engine becomes explicit state passing, and the
unbounded `while` loops of the engine become fueled recursion returning
`Option` (`none` covers both fuel exhaustion and a Python exception,
e.g. an `IndexError` or a `ValueError`; every positive statement below
is conditioned on a `some` result, so the conflation is harmless).
Python big integers are `Int`; Lean's `Int` `%` and `/` agree with
Python's `%` and `//` on the operands used here (Euclidean division
with positive divisors).
-/

/--
A canonical motif label, embedding the label strings of
`numbers_domains.py`: `"U1"` is `Motif.U1`, and `"E{k}.{x}"` is
`Motif.E k x`.  The string form is in bijection with this shape: the
code only builds labels via f-strings `f"E{k+1}.{x}"` / `"E1.{x}"` and
only destructs them by splitting at the dot (`McCracknsPrimeLaw._gap`),
so the embedding is exact.  `x` is an `Int` because
`NumbersDomains.canonical_motif(0)` computes the (malformed) label
`"E1.-2"`.
-/
inductive Motif where
  | U1 : Motif
  | E (k : Nat) (x : Int) : Motif
deriving DecidableEq, Repr

/--
`v2go`/`v2` compute the 2-adic valuation of a natural number (0 for 0).
`v2 g` embeds Python's `(g & -g).bit_length() - 1` from
`NumbersDomains.canonical_motif`: for `g ≠ 0`, the two's-complement
identity `g & -g = 2 ** v2 |g|` (lowest set bit) makes that expression
the 2-adic valuation of `|g|`.  The first argument is fuel; `v2go g g`
is exact because the valuation of `g` is below `g`.
-/
def v2go : Nat → Nat → Nat
  | 0, _ => 0
  | f + 1, g => if g % 2 = 0 ∧ g ≠ 0 then v2go f (g / 2) + 1 else 0

/-- 2-adic valuation, see `v2go`. -/
def v2 (g : Nat) : Nat := v2go g g

/-- Fueled helper for `bitLength` (structural recursion so that the
kernel can evaluate it; `bitLenGo n n` is exact since a number's bit
count never exceeds the number). -/
def bitLenGo : Nat → Nat → Nat
  | 0, _ => 0
  | f + 1, n => if n = 0 then 0 else bitLenGo f (n / 2) + 1

/-- Python `int.bit_length()` on a natural number. -/
def bitLength (n : Nat) : Nat := bitLenGo n n

/--
`NumbersDomains.canonical_motif` from `numbers_domains.py`, without the
memoization cache (the cache only stores already-computed labels below
`_CACHE_LIMIT` and never changes the returned label, so the cache-free
function is the observable behaviour).  `Except.error ()` embeds
`raise ValueError(...)`.

Notes on the bit tricks, faithful to Python two's-complement semantics:
* `g & 1 == 1` (odd test) is `g % 2 ≠ 0` (Python `%` = `Int.emod`);
* `g & (g - 1) == 0` holds exactly for `g = 0` and positive powers of
  two: any negative `g` has `g` and `g - 1` both negative, whose
  bitwise AND is negative, hence nonzero.  On nonnegative `g` it is
  `Nat.land g.toNat (g.toNat - 1) = 0` (for `g = 0`, Python computes
  `0 & -1 = 0`, and `Nat.land 0 (0 - 1) = Nat.land 0 0 = 0` matches);
* `(g & -g).bit_length() - 1` is `v2 g.natAbs` (lowest set bit);
* `g >> k` is `g / 2 ^ k`, exact here since `2 ^ k` divides `g`.
-/
def canonicalMotif (g : Int) : Except Unit Motif :=
  if g = 1 then Except.ok Motif.U1
  else if g % 2 ≠ 0 then Except.error ()
  else if 0 ≤ g ∧ Nat.land g.toNat (g.toNat - 1) = 0 then
    Except.ok (Motif.E 1 ((bitLength g.toNat : Int) - 1 - 1))
  else
    let k := v2 g.natAbs
    let odd := g / (2 : Int) ^ k
    if odd < 3 ∨ odd % 2 = 0 then Except.error ()
    else Except.ok (Motif.E (k + 1) ((odd - 3) / 2))

/--
`McCracknsPrimeLaw._gap` from `mccrackns_prime_law.py`: decode a motif
label into its numeric gap.  `none` embeds Python raising: `1 << (x+1)`
raises for `x + 1 < 0`, and `1 << (k - 1)` raises for `k = 0` (Python
`k - 1 = -1` there; for `k ≥ 1` the label's `k` was parsed from
`f"E{k}.{x}"`, and the code computes `2 ** (k-1) * (2*x+3)`).
-/
def gapOf : Motif → Option Int
  | Motif.U1 => some 1
  | Motif.E k x =>
    if k = 1 then
      if 0 ≤ x + 1 then some ((2 : Int) ^ (x + 1).toNat) else none
    else if k = 0 then none
    else some ((2 : Int) ^ (k - 1) * (2 * x + 3))

/-- The primary sort key of `McCracknsPrimeLaw._sort_alpha`: the decoded
gap (`0` is a placeholder never reached, since `sortAlpha` first checks
that every label decodes). -/
def motifKeyGap (m : Motif) : Int := (gapOf m).getD 0

/--
The comparison underlying `McCracknsPrimeLaw._sort_alpha`.  Python
sorts by the tuple `(gap,) + ints(label[1:].split("."))`, i.e.
`(1, 1)` for `"U1"` and `(gap, k, x)` for `"Ek.x"`, compared
lexicographically (a strict prefix compares as smaller).
-/
def motifLe (a b : Motif) : Bool :=
  let ga := motifKeyGap a
  let gb := motifKeyGap b
  match a, b with
  | Motif.U1, Motif.U1 => decide (ga < gb) || decide (ga = gb)
  | Motif.U1, Motif.E k _ => decide (ga < gb) || (decide (ga = gb) && decide ((1 : Int) ≤ (k : Int)))
  | Motif.E k _, Motif.U1 => decide (ga < gb) || (decide (ga = gb) && decide ((k : Int) < 1))
  | Motif.E k x, Motif.E k' x' =>
    decide (ga < gb) ||
      (decide (ga = gb) && (decide (k < k') || (decide (k = k') && decide (x ≤ x'))))

/--
`McCracknsPrimeLaw._sort_alpha`.  Python's `list.sort` first computes
the key of every element and raises if any `_gap` call raises (`none`
here); otherwise it produces the unique sorted permutation (all keys in
an alphabet are distinct, because labels are distinct and the key
includes the full label structure).
-/
def sortAlpha (l : List Motif) : Option (List Motif) :=
  if l.all (fun m => (gapOf m).isSome) then
    some (List.insertionSort (fun a b => motifLe a b = true) l)
  else none

/--
The mutable state of a `McCracknsPrimeLaw` instance, except for the
immutable configuration `n_primes` (held separately in `Engine`) and
the `verbose`/`progress_every` printing configuration (output-only).
`runCounter` is the `_run_counter` dict as an association list
(first-match lookup, in-place update), `usedMotifs` is the
`used_motifs` set as a duplicate-free list.
-/
structure EState where
  primes : List Int
  gaps : List Int
  motifs : List (Motif × Nat)
  runCounter : List (Motif × Nat)
  regimeIdx : Nat
  primorial : Int
  alphabet : List Motif
  usedMotifs : List Motif
  regimePoints : List Nat
deriving DecidableEq, Repr

/-- `self._run_counter.get(lbl, 0)`. -/
def lookupRC (rc : List (Motif × Nat)) (m : Motif) : Nat :=
  match rc.find? (fun e => e.1 = m) with
  | some e => e.2
  | none => 0

/-- `self._run_counter[lbl] = run` (update the entry or add it). -/
def setRC (rc : List (Motif × Nat)) (m : Motif) (v : Nat) : List (Motif × Nat) :=
  match rc with
  | [] => [(m, v)]
  | e :: rest => if e.1 = m then (m, v) :: rest else e :: setRC rest m v

/-- `self.used_motifs.add(lbl)` (set insertion). -/
def addUsed (l : List Motif) (m : Motif) : List Motif :=
  if m ∈ l then l else l ++ [m]

/--
The call forms of the engine's mutually recursive operations and loops
(`McCracknsPrimeLaw` methods).  Encoding them as one fueled function
`engineStep` keeps the recursion structural, so concrete runs compute
by `decide`/`rfl`:
* `singleStep s` — `_single_step` (the `internal`/`verbose` flag only
  controls printing and is not modeled);
* `stepLoop s` — the `while True:` body of `_single_step`;
* `tryLabels s pCurr P i` — the `for lbl in self.alphabet:` loop from
  index `i`; Python's list iterator walks the live (possibly re-sorted
  and extended) list by index, and the locals `p_curr`/`P` persist
  across iterations;
* `innerWhile s cand P` — the `while cand >= self.primes[self.regime_idx] ** 2:` loop;
* `bumpRegime s` — `_bump_regime`;
* `bumpWhile s` — the `while len(self.primes) <= self.regime_idx:` loop;
* `record s cand gap m` — `_record`;
* `nextMotif s g` — the scan loop of `_next_motif` from candidate gap `g`;
* `genLoop target s` — the `while len(self.primes) < self.n_primes:`
  loop of `generate`.
-/
inductive Call where
  | singleStep (s : EState)
  | stepLoop (s : EState)
  | tryLabels (s : EState) (pCurr P : Int) (i : Nat)
  | innerWhile (s : EState) (cand P : Int)
  | bumpRegime (s : EState)
  | bumpWhile (s : EState)
  | record (s : EState) (cand gap : Int) (m : Motif)
  | nextMotif (s : EState) (g : Int)
  | genLoop (target : Nat) (s : EState)
deriving Repr

/-- Results of the calls in `Call`: a plain state, a `tryLabels` result
(`true` = a candidate was accepted, `false` = the alphabet was
exhausted), an `innerWhile` result (state, the local `P`, and `true`
iff the loop exited normally so the candidate is still qualified), or a
motif from `nextMotif`. -/
inductive Res where
  | st (s : EState)
  | tl (accepted : Bool) (s : EState)
  | iw (s : EState) (P : Int) (ok : Bool)
  | mot (m : Motif)
deriving DecidableEq, Repr

/--
One fueled interpreter for all engine operations; `none` means the fuel
ran out or Python would raise.  Each equation is the direct
transliteration of the corresponding piece of `mccrackns_prime_law.py`
(see `Call`).  `List.getLast?` embeds `xs[-1]` and `l[i]?` embeds
`l[i]` (IndexError ⇒ `none`); `Int.gcd` embeds `math.gcd`.
-/
def engineStep : Nat → Call → Option Res
  | 0, _ => none
  | f + 1, c =>
    match c with
    | Call.singleStep s =>
      -- if len(self.primes) < 6: return
      if s.primes.length < 6 then some (Res.st s)
      else engineStep f (Call.stepLoop s)
    | Call.stepLoop s =>
      -- p_curr = self.primes[-1]; P = self.primorial; for lbl in self.alphabet: ...
      match s.primes.getLast? with
      | none => none
      | some pCurr =>
        match engineStep f (Call.tryLabels s pCurr s.primorial 0) with
        | some (Res.tl true s') => some (Res.st s')
        | some (Res.tl false s') =>
          -- no candidate matched: self.alphabet.append(self._next_motif()); self._sort_alpha()
          match s'.alphabet.getLast? with
          | none => none
          | some last =>
            match gapOf last with
            | none => none
            | some g0 =>
              match engineStep f (Call.nextMotif s' (g0 + 2)) with
              | some (Res.mot m) =>
                match sortAlpha (s'.alphabet ++ [m]) with
                | none => none
                | some al => engineStep f (Call.stepLoop { s' with alphabet := al })
              | _ => none
        | _ => none
    | Call.tryLabels s pCurr P i =>
      match s.alphabet[i]? with
      | none => some (Res.tl false s)
      | some lbl =>
        match gapOf lbl with
        | none => none
        | some gap =>
          let cand := pCurr + gap
          if Int.gcd cand P ≠ 1 then
            -- continue: eliminate mod-primorial composites
            engineStep f (Call.tryLabels s pCurr P (i + 1))
          else
            match engineStep f (Call.innerWhile s cand P) with
            | some (Res.iw s' _ true) =>
              -- while/else: self._record(cand, gap, lbl); return
              match engineStep f (Call.record s' cand gap lbl) with
              | some (Res.st s'') => some (Res.tl true s'')
              | _ => none
            | some (Res.iw s' P' false) =>
              -- break: candidate disqualified, move to the next label
              engineStep f (Call.tryLabels s' pCurr P' (i + 1))
            | _ => none
    | Call.innerWhile s cand P =>
      match s.primes[s.regimeIdx]? with
      | none => none
      | some thr =>
        if cand ≥ thr ^ 2 then
          match engineStep f (Call.bumpRegime s) with
          | some (Res.st s') =>
            let P' := s'.primorial
            if Int.gcd cand P' ≠ 1 then some (Res.iw s' P' false)
            else engineStep f (Call.innerWhile s' cand P')
          | _ => none
        else some (Res.iw s P true)
    | Call.bumpRegime s =>
      -- self.regime_points.append(len(self.primes))
      let s1 := { s with regimePoints := s.regimePoints ++ [s.primes.length] }
      -- self.alphabet.append(self._next_motif()); self._sort_alpha()
      match s1.alphabet.getLast? with
      | none => none
      | some last =>
        match gapOf last with
        | none => none
        | some g0 =>
          match engineStep f (Call.nextMotif s1 (g0 + 2)) with
          | some (Res.mot m) =>
            match sortAlpha (s1.alphabet ++ [m]) with
            | none => none
            | some al =>
              let s2 := { s1 with alphabet := al, regimeIdx := s1.regimeIdx + 1 }
              match engineStep f (Call.bumpWhile s2) with
              | some (Res.st s3) =>
                match s3.primes[s3.regimeIdx]? with
                | none => none
                | some p =>
                  some (Res.st { s3 with primorial := s3.primorial * p, usedMotifs := [] })
              | _ => none
          | _ => none
    | Call.bumpWhile s =>
      if s.primes.length ≤ s.regimeIdx then
        match engineStep f (Call.singleStep s) with
        | some (Res.st s') => engineStep f (Call.bumpWhile s')
        | _ => none
      else some (Res.st s)
    | Call.record s cand gap m =>
      let run := lookupRC s.runCounter m + 1
      let s1 : EState :=
        { s with
          primes := s.primes ++ [cand]
          gaps := s.gaps ++ [gap]
          runCounter := setRC s.runCounter m run
          motifs := s.motifs ++ [(m, run)]
          usedMotifs := addUsed s.usedMotifs m }
      if s1.usedMotifs.length = s1.alphabet.length then
        engineStep f (Call.bumpRegime s1)
      else some (Res.st s1)
    | Call.nextMotif s g =>
      match canonicalMotif g with
      | Except.error _ => none
      | Except.ok lbl =>
        if lbl ≠ Motif.U1 ∧ lbl ∉ s.alphabet then some (Res.mot lbl)
        else engineStep f (Call.nextMotif s (g + 2))
    | Call.genLoop target s =>
      if s.primes.length < target then
        match engineStep f (Call.singleStep s) with
        | some (Res.st s') => engineStep f (Call.genLoop target s')
        | _ => none
      else some (Res.st s)

/-- A `McCracknsPrimeLaw` instance: the clamped target `n_primes =
max(2, n_primes)` plus the mutable state. -/
structure Engine where
  nPrimes : Nat
  st : EState
deriving DecidableEq, Repr

/-- The seed prime list `[2, 3, 5, 7, 11, 13]` of `__init__`. -/
def seedPrimes : List Int := [2, 3, 5, 7, 11, 13]

/-- The seed gap list `[1, 2, 2, 4, 2]` of `__init__`. -/
def seedGaps : List Int := [1, 2, 2, 4, 2]

/-- The seed label list `["U1", "E1.0", "E1.0", "E1.1", "E1.0"]` of `__init__`. -/
def seedLabels : List Motif :=
  [Motif.U1, Motif.E 1 0, Motif.E 1 0, Motif.E 1 1, Motif.E 1 0]

/--
`McCracknsPrimeLaw.__init__(n_primes=n)`: clamp the target, truncate
the seed data, replay the seed labels through `_run_counter`, set up
regime bookkeeping, and (when at least the full 6-prime seed is loaded)
perform the initial `_bump_regime()`.  `fuel` feeds that bump.
-/
def initEngine (n : Int) (fuel : Nat) : Option Engine :=
  let nP := (max 2 n).toNat
  let primes := seedPrimes.take nP
  let gaps := seedGaps.take (primes.length - 1)
  -- self.motifs = [("U1", 1)]; self._run_counter = {"U1": 1, "E1.0": 0, "E1.1": 0}; replay loop
  let rc0 : List (Motif × Nat) := [(Motif.U1, 1), (Motif.E 1 0, 0), (Motif.E 1 1, 0)]
  let step := fun (acc : List (Motif × Nat) × List (Motif × Nat)) (lbl : Motif) =>
    let run := lookupRC acc.2 lbl + 1
    (acc.1 ++ [(lbl, run)], setRC acc.2 lbl run)
  let mr := (seedLabels.take (primes.length - 1)).foldl step ([(Motif.U1, 1)], rc0)
  match sortAlpha [Motif.U1, Motif.E 1 0] with
  | none => none
  | some al =>
    let st0 : EState :=
      { primes := primes
        gaps := gaps
        motifs := mr.1
        runCounter := mr.2
        regimeIdx := 1
        primorial := 2 * 3
        alphabet := al
        usedMotifs := al
        regimePoints := [] }
    if 6 ≤ primes.length then
      match engineStep fuel (Call.bumpRegime st0) with
      | some (Res.st st1) => some { nPrimes := nP, st := st1 }
      | _ => none
    else some { nPrimes := nP, st := st0 }

/-- `McCracknsPrimeLaw.generate()`: run the generation loop to the
target and return the updated engine together with the returned prime
list. -/
def generate (e : Engine) (fuel : Nat) : Option (Engine × List Int) :=
  match engineStep fuel (Call.genLoop e.nPrimes e.st) with
  | some (Res.st s') => some ({ e with st := s' }, s'.primes)
  | _ => none

/-- `McCracknsPrimeLaw.generate_one()`: advance by at most one prime
and report `(index, prime, gap, motif label)` for the current last
prime. -/
def generateOne (e : Engine) (fuel : Nat) :
    Option (Engine × (Nat × Int × Int × Motif)) :=
  let adv : Option EState :=
    if e.st.primes.length < e.nPrimes then
      match engineStep fuel (Call.singleStep e.st) with
      | some (Res.st s') => some s'
      | _ => none
    else some e.st
  match adv with
  | none => none
  | some s' =>
    let idx := s'.primes.length
    match s'.primes.getLast? with
    | none => none
    | some p =>
      if idx = 1 then some ({ e with st := s' }, (idx, p, 0, Motif.U1))
      else
        match s'.gaps.getLast?, s'.motifs.getLast? with
        | some g, some me => some ({ e with st := s' }, (idx, p, g, me.1))
        | _, _ => none

/--
`McCracknsPrimeLaw.stream_primes(start_idx=start)`, fully iterated: the
list of all yielded `(index, prime, gap, motif label)` tuples.  Each
loop iteration steps the engine once and yields only when the new prime
count has reached `start`.
-/
def streamPrimes : Nat → Engine → Nat → Option (List (Nat × Int × Int × Motif))
  | 0, _, _ => none
  | f + 1, e, start =>
    if e.st.primes.length < e.nPrimes then
      match engineStep f (Call.singleStep e.st) with
      | some (Res.st s') =>
        match streamPrimes f { e with st := s' } start with
        | none => none
        | some rest =>
          let idx := s'.primes.length
          if start ≤ idx then
            match s'.primes.getLast? with
            | none => none
            | some p =>
              if idx = 1 then some ((idx, p, 0, Motif.U1) :: rest)
              else
                match s'.gaps.getLast?, s'.motifs.getLast? with
                | some g, some me => some ((idx, p, g, me.1) :: rest)
                | _, _ => none
          else some rest
      | _ => none
    else some []

/-- Fuel monotonicity: a successful engine computation stays successful
with the same result when given more fuel (fuel only truncates the call
tree, it never influences a computed value). -/

theorem engineStep_mono : ∀ f c r, engineStep f c = some r → engineStep (f + 1) c = some r := by
  intro f
  induction f with
  | zero => intro c r h; simp [engineStep] at h
  | succ f ih =>
    intro c r h
    cases c with
    | singleStep s =>
      rw [engineStep] at h ⊢
      by_cases h6 : s.primes.length < 6
      · rw [if_pos h6] at h ⊢; exact h
      · rw [if_neg h6] at h ⊢; exact ih _ _ h
    | stepLoop s =>
      rw [engineStep] at h ⊢
      cases hpl : s.primes.getLast? with
      | none => rw [hpl] at h; simp at h
      | some pCurr =>
        rw [hpl] at h
        dsimp only at h ⊢
        cases htl : engineStep f (Call.tryLabels s pCurr s.primorial 0) with
        | none => rw [htl] at h; simp at h
        | some res =>
          rw [htl] at h
          rw [ih _ _ htl]
          cases res with
          | tl acc s' =>
            cases acc with
            | true => dsimp only at h ⊢; exact h
            | false =>
              dsimp only at h ⊢
              cases hal : s'.alphabet.getLast? with
              | none => rw [hal] at h; simp at h
              | some last =>
                rw [hal] at h
                dsimp only at h ⊢
                cases hg : gapOf last with
                | none => rw [hg] at h; simp at h
                | some g0 =>
                  rw [hg] at h
                  dsimp only at h ⊢
                  cases hnm : engineStep f (Call.nextMotif s' (g0 + 2)) with
                  | none => rw [hnm] at h; simp at h
                  | some res2 =>
                    rw [hnm] at h
                    rw [ih _ _ hnm]
                    cases res2 with
                    | mot m =>
                      dsimp only at h ⊢
                      cases hsa : sortAlpha (s'.alphabet ++ [m]) with
                      | none => rw [hsa] at h; simp at h
                      | some al =>
                        rw [hsa] at h
                        dsimp only at h ⊢
                        exact ih _ _ h
                    | st s2 => simp at h
                    | tl a s2 => simp at h
                    | iw s2 P2 b => simp at h
          | st s2 => simp at h
          | iw s2 P2 b => simp at h
          | mot m => simp at h
    | tryLabels s pCurr P i =>
      rw [engineStep] at h ⊢
      cases hai : s.alphabet[i]? with
      | none => rw [hai] at h; dsimp only at h ⊢; exact h
      | some lbl =>
        rw [hai] at h
        dsimp only at h ⊢
        cases hg : gapOf lbl with
        | none => rw [hg] at h; simp at h
        | some gap =>
          rw [hg] at h
          dsimp only at h ⊢
          by_cases hgcd : Int.gcd (pCurr + gap) P ≠ 1
          · rw [if_pos hgcd] at h ⊢; exact ih _ _ h
          · rw [if_neg hgcd] at h ⊢
            cases hiw : engineStep f (Call.innerWhile s (pCurr + gap) P) with
            | none => rw [hiw] at h; simp at h
            | some res =>
              rw [hiw] at h
              rw [ih _ _ hiw]
              cases res with
              | iw s' P' ok =>
                cases ok with
                | true =>
                  dsimp only at h ⊢
                  cases hrec : engineStep f (Call.record s' (pCurr + gap) gap lbl) with
                  | none => rw [hrec] at h; simp at h
                  | some res2 =>
                    rw [hrec] at h
                    rw [ih _ _ hrec]
                    cases res2 with
                    | st s'' => dsimp only at h ⊢; exact h
                    | tl a s2 => simp at h
                    | iw s2 P2 b => simp at h
                    | mot m => simp at h
                | false => dsimp only at h ⊢; exact ih _ _ h
              | st s2 => simp at h
              | tl a s2 => simp at h
              | mot m => simp at h
    | innerWhile s cand P =>
      rw [engineStep] at h ⊢
      cases hpr : s.primes[s.regimeIdx]? with
      | none => rw [hpr] at h; simp at h
      | some thr =>
        rw [hpr] at h
        dsimp only at h ⊢
        by_cases hge : cand ≥ thr ^ 2
        · rw [if_pos hge] at h ⊢
          cases hbr : engineStep f (Call.bumpRegime s) with
          | none => rw [hbr] at h; simp at h
          | some res =>
            rw [hbr] at h
            rw [ih _ _ hbr]
            cases res with
            | st s' =>
              dsimp only at h ⊢
              by_cases hgcd : Int.gcd cand s'.primorial ≠ 1
              · rw [if_pos hgcd] at h ⊢; exact h
              · rw [if_neg hgcd] at h ⊢; exact ih _ _ h
            | tl a s2 => simp at h
            | iw s2 P2 b => simp at h
            | mot m => simp at h
        · rw [if_neg hge] at h ⊢; exact h
    | bumpRegime s =>
      rw [engineStep] at h ⊢
      dsimp only at h ⊢
      cases hal : s.alphabet.getLast? with
      | none => rw [hal] at h; simp at h
      | some last =>
        rw [hal] at h
        dsimp only at h ⊢
        cases hg : gapOf last with
        | none => rw [hg] at h; simp at h
        | some g0 =>
          rw [hg] at h
          dsimp only at h ⊢
          cases hnm : engineStep f (Call.nextMotif { s with regimePoints := s.regimePoints ++ [s.primes.length] } (g0 + 2)) with
          | none => rw [hnm] at h; simp at h
          | some res =>
            rw [hnm] at h
            rw [ih _ _ hnm]
            cases res with
            | mot m =>
              dsimp only at h ⊢
              cases hsa : sortAlpha (s.alphabet ++ [m]) with
              | none => rw [hsa] at h; simp at h
              | some al =>
                rw [hsa] at h
                dsimp only at h ⊢
                cases hbw : engineStep f (Call.bumpWhile { s with regimePoints := s.regimePoints ++ [s.primes.length], alphabet := al, regimeIdx := s.regimeIdx + 1 }) with
                | none => rw [hbw] at h; simp at h
                | some res2 =>
                  rw [hbw] at h
                  rw [ih _ _ hbw]
                  cases res2 with
                  | st s3 =>
                    dsimp only at h ⊢
                    cases hp3 : s3.primes[s3.regimeIdx]? with
                    | none => rw [hp3] at h; simp at h
                    | some p =>
                      rw [hp3] at h
                      dsimp only at h ⊢
                      exact h
                  | tl a s2 => simp at h
                  | iw s2 P2 b => simp at h
                  | mot m2 => simp at h
            | st s2 => simp at h
            | tl a s2 => simp at h
            | iw s2 P2 b => simp at h
    | bumpWhile s =>
      rw [engineStep] at h ⊢
      by_cases hle : s.primes.length ≤ s.regimeIdx
      · rw [if_pos hle] at h ⊢
        cases hss : engineStep f (Call.singleStep s) with
        | none => rw [hss] at h; simp at h
        | some res =>
          rw [hss] at h
          rw [ih _ _ hss]
          cases res with
          | st s' => dsimp only at h ⊢; exact ih _ _ h
          | tl a s2 => simp at h
          | iw s2 P2 b => simp at h
          | mot m => simp at h
      · rw [if_neg hle] at h ⊢; exact h
    | record s cand gap m =>
      rw [engineStep] at h ⊢
      dsimp only at h ⊢
      split at h
      · next hcond => rw [if_pos hcond]; exact ih _ _ h
      · next hcond => rw [if_neg hcond]; exact h
    | nextMotif s g =>
      rw [engineStep] at h ⊢
      cases hcm : canonicalMotif g with
      | error e => rw [hcm] at h; simp at h
      | ok lbl =>
        rw [hcm] at h
        dsimp only at h ⊢
        by_cases hcond : lbl ≠ Motif.U1 ∧ lbl ∉ s.alphabet
        · rw [if_pos hcond] at h ⊢; exact h
        · rw [if_neg hcond] at h ⊢; exact ih _ _ h
    | genLoop target s =>
      rw [engineStep] at h ⊢
      by_cases hlt : s.primes.length < target
      · rw [if_pos hlt] at h ⊢
        cases hss : engineStep f (Call.singleStep s) with
        | none => rw [hss] at h; simp at h
        | some res =>
          rw [hss] at h
          rw [ih _ _ hss]
          cases res with
          | st s' => dsimp only at h ⊢; exact ih _ _ h
          | tl a s2 => simp at h
          | iw s2 P2 b => simp at h
          | mot m => simp at h
      · rw [if_neg hlt] at h ⊢; exact h

/-- Fuel monotonicity, ≤ form. -/
theorem engineStep_mono_le : ∀ f f' c r, f ≤ f' → engineStep f c = some r →
    engineStep f' c = some r := by
  intro f f' c r hle
  induction hle with
  | refl => exact fun h => h
  | step _ ih2 => exact fun h => engineStep_mono _ _ _ (ih2 h)

/-- Determinism across fuels: two successful runs of the same call agree. -/
theorem engineStep_det {f f' : Nat} {c : Call} {r r' : Res}
    (h : engineStep f c = some r) (h' : engineStep f' c = some r') : r = r' := by
  have h1 := engineStep_mono_le f (max f f') c r (Nat.le_max_left f f') h
  have h2 := engineStep_mono_le f' (max f f') c r' (Nat.le_max_right f f') h'
  rw [h1] at h2
  exact (Option.some.injEq _ _).mp h2
/-- The state a call operates on. -/
def callState : Call → EState
  | Call.singleStep s => s
  | Call.stepLoop s => s
  | Call.tryLabels s _ _ _ => s
  | Call.innerWhile s _ _ => s
  | Call.bumpRegime s => s
  | Call.bumpWhile s => s
  | Call.record s _ _ _ => s
  | Call.nextMotif s _ => s
  | Call.genLoop _ s => s

/-- "The primes of the input state are a prefix of the primes of the
result": the engine only ever appends to `self.primes`. -/
def resExtends (s : EState) : Res → Prop
  | Res.st t => s.primes <+: t.primes
  | Res.tl _ t => s.primes <+: t.primes
  | Res.iw t _ _ => s.primes <+: t.primes
  | Res.mot _ => True

theorem engineStep_prefixes : ∀ f c r, engineStep f c = some r → resExtends (callState c) r := by
  intro f
  induction f with
  | zero => intro c r h; simp [engineStep] at h
  | succ f ih =>
    intro c r h
    cases c with
    | singleStep s =>
      rw [engineStep] at h
      by_cases h6 : s.primes.length < 6
      · rw [if_pos h6] at h; cases h; exact List.prefix_rfl
      · rw [if_neg h6] at h; exact ih (Call.stepLoop s) r h
    | stepLoop s =>
      rw [engineStep] at h
      cases hpl : s.primes.getLast? with
      | none => rw [hpl] at h; simp at h
      | some pCurr =>
        rw [hpl] at h
        dsimp only at h
        cases htl : engineStep f (Call.tryLabels s pCurr s.primorial 0) with
        | none => rw [htl] at h; simp at h
        | some res =>
          rw [htl] at h
          cases res with
          | tl acc s' =>
            have h1 : s.primes <+: s'.primes := ih _ _ htl
            cases acc with
            | true => dsimp only at h; cases h; exact h1
            | false =>
              dsimp only at h
              cases hal : s'.alphabet.getLast? with
              | none => rw [hal] at h; simp at h
              | some last =>
                rw [hal] at h
                dsimp only at h
                cases hg : gapOf last with
                | none => rw [hg] at h; simp at h
                | some g0 =>
                  rw [hg] at h
                  dsimp only at h
                  cases hnm : engineStep f (Call.nextMotif s' (g0 + 2)) with
                  | none => rw [hnm] at h; simp at h
                  | some res2 =>
                    rw [hnm] at h
                    cases res2 with
                    | mot m =>
                      dsimp only at h
                      cases hsa : sortAlpha (s'.alphabet ++ [m]) with
                      | none => rw [hsa] at h; simp at h
                      | some al =>
                        rw [hsa] at h
                        dsimp only at h
                        have h2 : ({ s' with alphabet := al } : EState).primes <+: (callState (Call.stepLoop { s' with alphabet := al })).primes := List.prefix_rfl
                        have h3 := ih _ _ h
                        cases r with
                        | st t => exact h1.trans h3
                        | tl a t => exact h1.trans h3
                        | iw t P b => exact h1.trans h3
                        | mot m2 => trivial
                    | st s2 => simp at h
                    | tl a s2 => simp at h
                    | iw s2 P2 b => simp at h
          | st s2 => simp at h
          | iw s2 P2 b => simp at h
          | mot m => simp at h
    | tryLabels s pCurr P i =>
      rw [engineStep] at h
      cases hai : s.alphabet[i]? with
      | none => rw [hai] at h; dsimp only at h; cases h; exact List.prefix_rfl
      | some lbl =>
        rw [hai] at h
        dsimp only at h
        cases hg : gapOf lbl with
        | none => rw [hg] at h; simp at h
        | some gap =>
          rw [hg] at h
          dsimp only at h
          by_cases hgcd : Int.gcd (pCurr + gap) P ≠ 1
          · rw [if_pos hgcd] at h; exact ih (Call.tryLabels s pCurr P (i + 1)) r h
          · rw [if_neg hgcd] at h
            cases hiw : engineStep f (Call.innerWhile s (pCurr + gap) P) with
            | none => rw [hiw] at h; simp at h
            | some res =>
              rw [hiw] at h
              cases res with
              | iw s' P' ok =>
                have h1 : s.primes <+: s'.primes := ih _ _ hiw
                cases ok with
                | true =>
                  dsimp only at h
                  cases hrec : engineStep f (Call.record s' (pCurr + gap) gap lbl) with
                  | none => rw [hrec] at h; simp at h
                  | some res2 =>
                    rw [hrec] at h
                    cases res2 with
                    | st s'' =>
                      dsimp only at h
                      cases h
                      exact h1.trans (ih _ _ hrec)
                    | tl a s2 => simp at h
                    | iw s2 P2 b => simp at h
                    | mot m => simp at h
                | false =>
                  dsimp only at h
                  have h3 := ih _ _ h
                  cases r with
                  | st t => exact h1.trans h3
                  | tl a t => exact h1.trans h3
                  | iw t P2 b => exact h1.trans h3
                  | mot m2 => trivial
              | st s2 => simp at h
              | tl a s2 => simp at h
              | mot m => simp at h
    | innerWhile s cand P =>
      rw [engineStep] at h
      cases hpr : s.primes[s.regimeIdx]? with
      | none => rw [hpr] at h; simp at h
      | some thr =>
        rw [hpr] at h
        dsimp only at h
        by_cases hge : cand ≥ thr ^ 2
        · rw [if_pos hge] at h
          cases hbr : engineStep f (Call.bumpRegime s) with
          | none => rw [hbr] at h; simp at h
          | some res =>
            rw [hbr] at h
            cases res with
            | st s' =>
              have h1 : s.primes <+: s'.primes := ih _ _ hbr
              dsimp only at h
              by_cases hgcd : Int.gcd cand s'.primorial ≠ 1
              · rw [if_pos hgcd] at h; cases h; exact h1
              · rw [if_neg hgcd] at h
                have h3 := ih _ _ h
                cases r with
                | st t => exact h1.trans h3
                | tl a t => exact h1.trans h3
                | iw t P2 b => exact h1.trans h3
                | mot m2 => trivial
            | tl a s2 => simp at h
            | iw s2 P2 b => simp at h
            | mot m => simp at h
        · rw [if_neg hge] at h; cases h; exact List.prefix_rfl
    | bumpRegime s =>
      rw [engineStep] at h
      dsimp only at h
      cases hal : s.alphabet.getLast? with
      | none => rw [hal] at h; simp at h
      | some last =>
        rw [hal] at h
        dsimp only at h
        cases hg : gapOf last with
        | none => rw [hg] at h; simp at h
        | some g0 =>
          rw [hg] at h
          dsimp only at h
          cases hnm : engineStep f (Call.nextMotif { s with regimePoints := s.regimePoints ++ [s.primes.length] } (g0 + 2)) with
          | none => rw [hnm] at h; simp at h
          | some res =>
            rw [hnm] at h
            cases res with
            | mot m =>
              dsimp only at h
              cases hsa : sortAlpha (s.alphabet ++ [m]) with
              | none => rw [hsa] at h; simp at h
              | some al =>
                rw [hsa] at h
                dsimp only at h
                cases hbw : engineStep f (Call.bumpWhile { s with regimePoints := s.regimePoints ++ [s.primes.length], alphabet := al, regimeIdx := s.regimeIdx + 1 }) with
                | none => rw [hbw] at h; simp at h
                | some res2 =>
                  rw [hbw] at h
                  cases res2 with
                  | st s3 =>
                    have h1 : s.primes <+: s3.primes := ih _ _ hbw
                    dsimp only at h
                    cases hp3 : s3.primes[s3.regimeIdx]? with
                    | none => rw [hp3] at h; simp at h
                    | some p =>
                      rw [hp3] at h
                      dsimp only at h
                      cases h
                      exact h1
                  | tl a s2 => simp at h
                  | iw s2 P2 b => simp at h
                  | mot m2 => simp at h
            | st s2 => simp at h
            | tl a s2 => simp at h
            | iw s2 P2 b => simp at h
    | bumpWhile s =>
      rw [engineStep] at h
      by_cases hle : s.primes.length ≤ s.regimeIdx
      · rw [if_pos hle] at h
        cases hss : engineStep f (Call.singleStep s) with
        | none => rw [hss] at h; simp at h
        | some res =>
          rw [hss] at h
          cases res with
          | st s' =>
            dsimp only at h
            have h1 : s.primes <+: s'.primes := ih _ _ hss
            have h3 := ih _ _ h
            cases r with
            | st t => exact h1.trans h3
            | tl a t => exact h1.trans h3
            | iw t P2 b => exact h1.trans h3
            | mot m2 => trivial
          | tl a s2 => simp at h
          | iw s2 P2 b => simp at h
          | mot m => simp at h
      · rw [if_neg hle] at h; cases h; exact List.prefix_rfl
    | record s cand gap m =>
      rw [engineStep] at h
      dsimp only at h
      have hpre : s.primes <+: s.primes ++ [cand] := List.prefix_append _ _
      split at h
      · have h3 := ih _ _ h
        cases r with
        | st t => exact hpre.trans h3
        | tl a t => exact hpre.trans h3
        | iw t P2 b => exact hpre.trans h3
        | mot m2 => trivial
      · cases h; exact hpre
    | nextMotif s g =>
      rw [engineStep] at h
      cases hcm : canonicalMotif g with
      | error e => rw [hcm] at h; simp at h
      | ok lbl =>
        rw [hcm] at h
        dsimp only at h
        by_cases hcond : lbl ≠ Motif.U1 ∧ lbl ∉ s.alphabet
        · rw [if_pos hcond] at h; cases h; trivial
        · rw [if_neg hcond] at h
          have h3 := ih _ _ h
          cases r with
          | st t => exact h3
          | tl a t => exact h3
          | iw t P2 b => exact h3
          | mot m2 => trivial
    | genLoop target s =>
      rw [engineStep] at h
      by_cases hlt : s.primes.length < target
      · rw [if_pos hlt] at h
        cases hss : engineStep f (Call.singleStep s) with
        | none => rw [hss] at h; simp at h
        | some res =>
          rw [hss] at h
          cases res with
          | st s' =>
            dsimp only at h
            have h1 : s.primes <+: s'.primes := ih _ _ hss
            have h3 := ih _ _ h
            cases r with
            | st t => exact h1.trans h3
            | tl a t => exact h1.trans h3
            | iw t P2 b => exact h1.trans h3
            | mot m2 => trivial
          | tl a s2 => simp at h
          | iw s2 P2 b => simp at h
          | mot m => simp at h
      · rw [if_neg hlt] at h; cases h; exact List.prefix_rfl
/-- Length growth: a completed `_record` (and hence a completed
`_single_step` beyond the seed, and an accepted label scan) strictly
lengthens `self.primes`. -/
def lenGrows : Call → Res → Prop
  | Call.record s _ _ _, Res.st t => s.primes.length < t.primes.length
  | Call.stepLoop s, Res.st t => s.primes.length < t.primes.length
  | Call.tryLabels s _ _ _, Res.tl true t => s.primes.length < t.primes.length
  | Call.singleStep s, Res.st t => 6 ≤ s.primes.length → s.primes.length < t.primes.length
  | _, _ => True

theorem engineStep_lenGrows : ∀ f c r, engineStep f c = some r → lenGrows c r := by
  intro f
  induction f with
  | zero => intro c r h; simp [engineStep] at h
  | succ f ih =>
    intro c r h
    cases c with
    | singleStep s =>
      rw [engineStep] at h
      by_cases h6 : s.primes.length < 6
      · rw [if_pos h6] at h
        cases h
        intro hge
        omega
      · rw [if_neg h6] at h
        have h1 := ih (Call.stepLoop s) r h
        cases r with
        | st t => exact fun _ => h1
        | tl a t => trivial
        | iw t P b => trivial
        | mot m => trivial
    | stepLoop s =>
      rw [engineStep] at h
      cases hpl : s.primes.getLast? with
      | none => rw [hpl] at h; simp at h
      | some pCurr =>
        rw [hpl] at h
        dsimp only at h
        cases htl : engineStep f (Call.tryLabels s pCurr s.primorial 0) with
        | none => rw [htl] at h; simp at h
        | some res =>
          rw [htl] at h
          cases res with
          | tl acc s' =>
            cases acc with
            | true =>
              dsimp only at h
              cases h
              exact ih (Call.tryLabels s pCurr s.primorial 0) (Res.tl true s') htl
            | false =>
              dsimp only at h
              cases hal : s'.alphabet.getLast? with
              | none => rw [hal] at h; simp at h
              | some last =>
                rw [hal] at h
                dsimp only at h
                cases hg : gapOf last with
                | none => rw [hg] at h; simp at h
                | some g0 =>
                  rw [hg] at h
                  dsimp only at h
                  cases hnm : engineStep f (Call.nextMotif s' (g0 + 2)) with
                  | none => rw [hnm] at h; simp at h
                  | some res2 =>
                    rw [hnm] at h
                    cases res2 with
                    | mot m =>
                      dsimp only at h
                      cases hsa : sortAlpha (s'.alphabet ++ [m]) with
                      | none => rw [hsa] at h; simp at h
                      | some al =>
                        rw [hsa] at h
                        dsimp only at h
                        have hle : s.primes.length ≤ s'.primes.length :=
                          List.IsPrefix.length_le (engineStep_prefixes f _ _ htl)
                        have h1 := ih (Call.stepLoop { s' with alphabet := al }) r h
                        cases r with
                        | st t => exact Nat.lt_of_le_of_lt hle h1
                        | tl a t => trivial
                        | iw t P b => trivial
                        | mot m2 => trivial
                    | st s2 => simp at h
                    | tl a s2 => simp at h
                    | iw s2 P2 b => simp at h
          | st s2 => simp at h
          | iw s2 P2 b => simp at h
          | mot m => simp at h
    | tryLabels s pCurr P i =>
      rw [engineStep] at h
      cases hai : s.alphabet[i]? with
      | none =>
        rw [hai] at h
        dsimp only at h
        cases h
        trivial
      | some lbl =>
        rw [hai] at h
        dsimp only at h
        cases hg : gapOf lbl with
        | none => rw [hg] at h; simp at h
        | some gap =>
          rw [hg] at h
          dsimp only at h
          by_cases hgcd : Int.gcd (pCurr + gap) P ≠ 1
          · rw [if_pos hgcd] at h
            have h1 := ih (Call.tryLabels s pCurr P (i + 1)) r h
            cases r with
            | st t => trivial
            | tl a t => cases a with
              | true => exact h1
              | false => trivial
            | iw t P2 b => trivial
            | mot m => trivial
          · rw [if_neg hgcd] at h
            cases hiw : engineStep f (Call.innerWhile s (pCurr + gap) P) with
            | none => rw [hiw] at h; simp at h
            | some res =>
              rw [hiw] at h
              cases res with
              | iw s' P' ok =>
                have hle : s.primes.length ≤ s'.primes.length :=
                  List.IsPrefix.length_le (engineStep_prefixes f _ _ hiw)
                cases ok with
                | true =>
                  dsimp only at h
                  cases hrec : engineStep f (Call.record s' (pCurr + gap) gap lbl) with
                  | none => rw [hrec] at h; simp at h
                  | some res2 =>
                    rw [hrec] at h
                    cases res2 with
                    | st s'' =>
                      dsimp only at h
                      cases h
                      exact Nat.lt_of_le_of_lt hle (ih _ _ hrec)
                    | tl a s2 => simp at h
                    | iw s2 P2 b => simp at h
                    | mot m => simp at h
                | false =>
                  dsimp only at h
                  have h1 := ih (Call.tryLabels s' pCurr P' (i + 1)) r h
                  cases r with
                  | st t => trivial
                  | tl a t => cases a with
                    | true => exact Nat.lt_of_le_of_lt hle h1
                    | false => trivial
                  | iw t P2 b => trivial
                  | mot m => trivial
              | st s2 => simp at h
              | tl a s2 => simp at h
              | mot m => simp at h
    | innerWhile s cand P => cases r with
      | st t => trivial
      | tl a t => trivial
      | iw t P2 b => trivial
      | mot m => trivial
    | bumpRegime s => cases r with
      | st t => trivial
      | tl a t => trivial
      | iw t P2 b => trivial
      | mot m => trivial
    | bumpWhile s => cases r with
      | st t => trivial
      | tl a t => trivial
      | iw t P2 b => trivial
      | mot m => trivial
    | record s cand gap m =>
      rw [engineStep] at h
      dsimp only at h
      split at h
      · have h2 := engineStep_prefixes f _ _ h
        cases r with
        | st t =>
          have h3 : (s.primes ++ [cand]).length ≤ t.primes.length := List.IsPrefix.length_le h2
          simp only [List.length_append, List.length_singleton] at h3
          show s.primes.length < t.primes.length
          omega
        | tl a t => trivial
        | iw t P2 b => trivial
        | mot m2 => trivial
      · cases h
        show s.primes.length < (s.primes ++ [cand]).length
        simp
    | nextMotif s g => cases r with
      | st t => trivial
      | tl a t => trivial
      | iw t P2 b => trivial
      | mot m => trivial
    | genLoop target s => cases r with
      | st t => trivial
      | tl a t => trivial
      | iw t P2 b => trivial
      | mot m => trivial

/--
Splitting a `generate` run: a successful run to target `n` from state
`s` passes through a successful run to any smaller target `m` (same
fuel), whose intermediate state's primes are a prefix of the final
primes.
-/
theorem genLoop_split : ∀ f m n s sf, m ≤ n →
    engineStep f (Call.genLoop n s) = some (Res.st sf) →
    ∃ s', engineStep f (Call.genLoop m s) = some (Res.st s') ∧ s'.primes <+: sf.primes := by
  intro f
  induction f with
  | zero => intro m n s sf _ h; simp [engineStep] at h
  | succ f ih =>
    intro m n s sf hmn h
    by_cases hm : s.primes.length < m
    · have hn : s.primes.length < n := Nat.lt_of_lt_of_le hm hmn
      rw [engineStep] at h
      rw [if_pos hn] at h
      cases hss : engineStep f (Call.singleStep s) with
      | none => rw [hss] at h; simp at h
      | some res =>
        rw [hss] at h
        cases res with
        | st t =>
          dsimp only at h
          obtain ⟨s', hs', hpre⟩ := ih m n t sf hmn h
          refine ⟨s', ?_, hpre⟩
          rw [engineStep, if_pos hm, hss]
          exact hs'
        | tl a s2 => simp at h
        | iw s2 P2 b => simp at h
        | mot m2 => simp at h
    · refine ⟨s, ?_, ?_⟩
      · rw [engineStep, if_neg hm]
      · exact engineStep_prefixes _ _ _ h

/-- The engine state built by `__init__` for any target `n_primes ≥ 6`
(the full seed is loaded and the constructor's `_bump_regime()` is
about to run): computed by replaying the constructor body. -/
def seedState : EState :=
  { primes := seedPrimes
    gaps := seedGaps
    motifs := [(Motif.U1, 1), (Motif.U1, 2), (Motif.E 1 0, 1), (Motif.E 1 0, 2),
               (Motif.E 1 1, 1), (Motif.E 1 0, 3)]
    runCounter := [(Motif.U1, 2), (Motif.E 1 0, 3), (Motif.E 1 1, 1)]
    regimeIdx := 1
    primorial := 2 * 3
    alphabet := [Motif.U1, Motif.E 1 0]
    usedMotifs := [Motif.U1, Motif.E 1 0]
    regimePoints := [] }

/-- For a target of at least 6, `__init__` loads the full seed (which
is one fixed state, `seedState`) and runs the constructor bump on it. -/
theorem initEngine_large (n : Int) (fuel : Nat) (hn : 6 ≤ n) :
    initEngine n fuel =
      match engineStep fuel (Call.bumpRegime seedState) with
      | some (Res.st st1) => some { nPrimes := n.toNat, st := st1 }
      | _ => none := by
  have hmax : max 2 n = n := max_eq_right (by omega)
  have h6 : 6 ≤ n.toNat := by omega
  unfold initEngine
  rw [hmax]
  dsimp only
  rw [List.take_of_length_le (show seedPrimes.length ≤ n.toNat by simp [seedPrimes]; omega)]
  rfl

/-- The reference sequence of the first 20 primes from the spec. -/
def refPrimes20 : List Int :=
  [2, 3, 5, 7, 11, 13, 17, 19, 23, 29, 31, 37, 41, 43, 47, 53, 59, 61, 67, 71]

/-- Construct a fresh engine with target `n` and call `generate()` on
it, returning the prime list (`fi`/`fg` are constructor/generate fuel). -/
def runGenerate (n : Int) (fi fg : Nat) : Option (List Int) :=
  match initEngine n fi with
  | none => none
  | some e =>
    match generate e fg with
    | none => none
    | some p => some p.2

/-- Concrete anchor for C1: with target 20 the constructor bump and the
generation loop to 20 primes produce exactly `refPrimes20`. -/
theorem c1_anchor :
    (match engineStep 40 (Call.bumpRegime seedState) with
      | some (Res.st t) =>
        (match engineStep 300 (Call.genLoop 20 t) with
          | some (Res.st u) => some u.primes
          | _ => none)
      | _ => none) = some refPrimes20 := by decide

/-- C1: for every target `n_primes ≥ 20`, `generate()` on a fresh
engine returns a list whose first 20 entries are `refPrimes20`. -/
theorem c1_first20 (n : Int) (fi fg : Nat) (l : List Int) (hn : 20 ≤ n)
    (h : runGenerate n fi fg = some l) :
    l.take 20 = refPrimes20 := by
  unfold runGenerate at h
  cases hinit : initEngine n fi with
  | none => rw [hinit] at h; simp at h
  | some e =>
    rw [hinit] at h
    dsimp only at h
    cases hgen : generate e fg with
    | none => rw [hgen] at h; simp at h
    | some p =>
      rw [hgen] at h
      dsimp only at h
      cases h
      rw [initEngine_large n fi (by omega)] at hinit
      cases hbr : engineStep fi (Call.bumpRegime seedState) with
      | none => rw [hbr] at hinit; simp at hinit
      | some res =>
        rw [hbr] at hinit
        cases res with
        | st st1 =>
          dsimp only at hinit
          cases hinit
          have hanchor := c1_anchor
          cases hbr0 : engineStep 40 (Call.bumpRegime seedState) with
          | none => rw [hbr0] at hanchor; simp at hanchor
          | some res0 =>
            rw [hbr0] at hanchor
            have hdet : res0 = Res.st st1 := engineStep_det hbr0 hbr
            cases hdet
            dsimp only at hanchor
            cases hgl0 : engineStep 300 (Call.genLoop 20 st1) with
            | none => rw [hgl0] at hanchor; simp at hanchor
            | some res1 =>
              rw [hgl0] at hanchor
              cases res1 with
              | st u =>
                dsimp only at hanchor
                have hup : u.primes = refPrimes20 := by
                  exact (Option.some.injEq _ _).mp hanchor
                unfold generate at hgen
                cases hgl : engineStep fg (Call.genLoop ({ nPrimes := n.toNat, st := st1 } : Engine).nPrimes ({ nPrimes := n.toNat, st := st1 } : Engine).st) with
                | none => rw [hgl] at hgen; simp at hgen
                | some res2 =>
                  rw [hgl] at hgen
                  cases res2 with
                  | st sf =>
                    dsimp only at hgen
                    cases hgen
                    have h20 : 20 ≤ n.toNat := by omega
                    obtain ⟨s', hs', hpre⟩ := genLoop_split fg 20 n.toNat st1 sf h20 hgl
                    have hdet2 : Res.st u = Res.st s' := engineStep_det hgl0 hs'
                    have hus : u = s' := by cases hdet2; rfl
                    rw [hus] at hup
                    have hpre2 : refPrimes20 <+: sf.primes := by rw [← hup]; exact hpre
                    have htake := List.prefix_iff_eq_take.mp hpre2
                    have hlen : refPrimes20.length = 20 := rfl
                    rw [hlen] at htake
                    show List.take 20 sf.primes = refPrimes20
                    exact htake.symm
                  | tl a t2 => simp at hgen
                  | iw t2 P2 b => simp at hgen
                  | mot m2 => simp at hgen
              | tl a t2 => simp at hanchor
              | iw t2 P2 b => simp at hanchor
              | mot m2 => simp at hanchor
        | tl a t2 => simp at hinit
        | iw t2 P2 b => simp at hinit
        | mot m2 => simp at hinit

/-- Witness for C1 at the concrete target 20. -/
theorem c1_first20_witness : refPrimes20.take 20 = refPrimes20 :=
  c1_first20 20 40 300 refPrimes20 (by norm_num) (by decide)

/-- Counterexample to C3 as stated: with `n_primes = 1` the constructor
clamps the target to `max(2, 1) = 2`, so `generate()` returns the
two-element seed prefix `[2, 3]`, not `[2]`. -/
theorem c3_cex : runGenerate 1 10 10 = some [2, 3] ∧ ([2, 3] : List Int) ≠ [2] := by
  constructor
  · decide
  · decide

/-- C3 (amended): for `n_primes = 1` the target is clamped to 2 and
`generate()` on the fresh engine yields exactly `[2, 3]` without error,
for any fuel (the run needs no engine step at all). -/
theorem c3_clamped (fi fg : Nat) : runGenerate 1 fi (fg + 1) = some [2, 3] := rfl

/-- Witness for C3 (amended) at fuel 0. -/
theorem c3_clamped_witness : runGenerate 1 0 1 = some [2, 3] := c3_clamped 0 0

/-- C6: once the prime count has reached `n_primes`, `generate` and
`generate_one` are no-ops: no error, the engine state (hence primes,
gaps, motifs, alphabet, primorial and regime bookkeeping) is unchanged,
`generate` returns the complete prime list and `generate_one` returns
the tuple describing the current last prime.  The two list hypotheses
say the state is well-formed enough for `generate_one`'s reads
(`primes[-1]`, `gaps[-1]`, `motifs[-1]`) to succeed, as on every
engine-built state. -/
theorem c6_target_noop (e : Engine) (fg fo : Nat)
    (htar : e.nPrimes ≤ e.st.primes.length)
    (hne : e.st.primes ≠ [])
    (hrec : e.st.primes.length = 1 ∨ (e.st.gaps ≠ [] ∧ e.st.motifs ≠ [])) :
    generate e (fg + 1) = some (e, e.st.primes) ∧
    ∃ t, generateOne e fo = some (e, t) ∧
      t.1 = e.st.primes.length ∧ e.st.primes.getLast? = some t.2.1 := by
  constructor
  · unfold generate
    rw [engineStep, if_neg (Nat.not_lt.mpr htar)]
  · unfold generateOne
    rw [if_neg (Nat.not_lt.mpr htar)]
    dsimp only
    cases hp : e.st.primes.getLast? with
    | none =>
      exact absurd (List.getLast?_isSome.mpr hne) (by rw [hp]; simp)
    | some p =>
      dsimp only
      by_cases h1 : e.st.primes.length = 1
      · rw [if_pos h1, h1]
        exact ⟨(1, p, 0, Motif.U1), rfl, rfl, rfl⟩
      · rw [if_neg h1]
        rcases hrec with h1' | ⟨hg, hm⟩
        · exact absurd h1' h1
        · cases hgl : e.st.gaps.getLast? with
          | none => exact absurd (List.getLast?_isSome.mpr hg) (by rw [hgl]; simp)
          | some g =>
            cases hml : e.st.motifs.getLast? with
            | none => exact absurd (List.getLast?_isSome.mpr hm) (by rw [hml]; simp)
            | some me =>
              exact ⟨(e.st.primes.length, p, g, me.1), rfl, rfl, rfl⟩

/-- The clamped `n_primes = 2` engine (what `McCracknsPrimeLaw(n_primes=1)`
builds), used as the C6 witness state. -/
def engineAtTarget : Engine :=
  { nPrimes := 2
    st :=
      { primes := [2, 3]
        gaps := [1]
        motifs := [(Motif.U1, 1), (Motif.U1, 2)]
        runCounter := [(Motif.U1, 2), (Motif.E 1 0, 0), (Motif.E 1 1, 0)]
        regimeIdx := 1
        primorial := 6
        alphabet := [Motif.U1, Motif.E 1 0]
        usedMotifs := [Motif.U1, Motif.E 1 0]
        regimePoints := [] } }

/-- Witness for C6 on a concrete at-target engine. -/
theorem c6_target_noop_witness :
    generate engineAtTarget 1 = some (engineAtTarget, engineAtTarget.st.primes) ∧
    ∃ t, generateOne engineAtTarget 0 = some (engineAtTarget, t) ∧
      t.1 = engineAtTarget.st.primes.length ∧
      engineAtTarget.st.primes.getLast? = some t.2.1 :=
  c6_target_noop engineAtTarget 0 0 (by decide) (by decide) (Or.inr ⟨by decide, by decide⟩)

/-- Below the seed threshold `_single_step` is a no-op, so a stream
that still needs primes never terminates (the model returns `none` for
every fuel). -/
theorem streamPrimes_small : ∀ f (e : Engine) (start : Nat),
    e.st.primes.length < 6 → e.st.primes.length < e.nPrimes →
    streamPrimes f e start = none := by
  intro f
  induction f with
  | zero => intro e start _ _; rfl
  | succ f ih =>
    intro e start h6 hlt
    rw [streamPrimes, if_pos hlt]
    cases f with
    | zero => rfl
    | succ f' =>
      rw [engineStep, if_pos h6]
      dsimp only
      rw [ih e start h6 hlt]

/-- C5 (amended): every successful full iteration of `stream_primes`
yields tuples whose indices are strictly increasing, all at least
`start_idx` and all strictly above the prime count the engine started
with (in particular, on a fresh engine no index below 7 is ever
yielded: the 6 seed primes are never reported). -/
theorem c5_stream_indices : ∀ f (e : Engine) (start : Nat) ys,
    streamPrimes f e start = some ys →
    (∀ t ∈ ys, start ≤ t.1 ∧ e.st.primes.length < t.1) ∧
      ys.Chain' (fun a b => a.1 < b.1) := by
  intro f
  induction f with
  | zero => intro e start ys h; simp [streamPrimes] at h
  | succ f ih =>
    intro e start ys h
    rw [streamPrimes] at h
    by_cases hlt : e.st.primes.length < e.nPrimes
    · rw [if_pos hlt] at h
      by_cases h6 : 6 ≤ e.st.primes.length
      · cases hss : engineStep f (Call.singleStep e.st) with
        | none => rw [hss] at h; simp at h
        | some res =>
          rw [hss] at h
          cases res with
          | st s' =>
            dsimp only at h
            cases hrest : streamPrimes f { e with st := s' } start with
            | none => rw [hrest] at h; simp at h
            | some rest =>
              rw [hrest] at h
              obtain ⟨hmem, hchain⟩ := ih { e with st := s' } start rest hrest
              have hgrow : e.st.primes.length < s'.primes.length :=
                engineStep_lenGrows f (Call.singleStep e.st) (Res.st s') hss h6
              dsimp only at h
              by_cases hst : start ≤ s'.primes.length
              · rw [if_pos hst] at h
                cases hp : s'.primes.getLast? with
                | none => rw [hp] at h; simp at h
                | some p =>
                  rw [hp] at h
                  dsimp only at h
                  by_cases hidx1 : s'.primes.length = 1
                  · rw [if_pos hidx1] at h
                    cases h
                    constructor
                    · intro t ht
                      rcases List.mem_cons.mp ht with rfl | ht'
                      · exact ⟨hst, hgrow⟩
                      · exact ⟨(hmem t ht').1, Nat.lt_trans hgrow (hmem t ht').2⟩
                    · refine List.chain'_cons'.mpr ⟨?_, hchain⟩
                      intro b hb
                      have hbmem : b ∈ rest := List.mem_of_mem_head? hb
                      exact (hmem b hbmem).2
                  · rw [if_neg hidx1] at h
                    cases hgl : s'.gaps.getLast? with
                    | none => rw [hgl] at h; simp at h
                    | some g =>
                      rw [hgl] at h
                      cases hml : s'.motifs.getLast? with
                      | none => rw [hml] at h; simp at h
                      | some me =>
                        rw [hml] at h
                        dsimp only at h
                        cases h
                        constructor
                        · intro t ht
                          rcases List.mem_cons.mp ht with rfl | ht'
                          · exact ⟨hst, hgrow⟩
                          · exact ⟨(hmem t ht').1, Nat.lt_trans hgrow (hmem t ht').2⟩
                        · refine List.chain'_cons'.mpr ⟨?_, hchain⟩
                          intro b hb
                          have hbmem : b ∈ rest := List.mem_of_mem_head? hb
                          exact (hmem b hbmem).2
              · rw [if_neg hst] at h
                cases h
                exact ⟨fun t ht => ⟨(hmem t ht).1, Nat.lt_trans hgrow (hmem t ht).2⟩, hchain⟩
          | tl a s2 => simp at h
          | iw s2 P2 b => simp at h
          | mot m => simp at h
      · have h6' : e.st.primes.length < 6 := Nat.lt_of_not_le h6
        cases f with
        | zero => simp [engineStep] at h
        | succ f' =>
          rw [engineStep, if_pos h6'] at h
          dsimp only at h
          have hnone := streamPrimes_small (f' + 1) { nPrimes := e.nPrimes, st := e.st } start h6' hlt
          rw [hnone] at h
          simp at h
    · rw [if_neg hlt] at h
      cases h
      exact ⟨fun t ht => absurd ht (List.not_mem_nil t), List.chain'_nil⟩

/-- `stream_primes` run on a fresh engine: construct with target `n`
and fully iterate `stream_primes(start_idx=start)`. -/
def runStream (n : Int) (fi fs start : Nat) : Option (List (Nat × Int × Int × Motif)) :=
  match initEngine n fi with
  | none => none
  | some e => streamPrimes fs e start

/-- Counterexample to C5 as stated: on a fresh engine with target 7 and
`start_idx = 1`, the fully iterated stream yields exactly one tuple
(index 7) — the claimed tuples for indices 1 through 6 (the seed
primes) are never yielded. -/
theorem c5_cex :
    runStream 7 30 100 1 = some [(7, 17, 4, Motif.E 1 1)] ∧
    (1 : Nat) ∉ ([(7, 17, 4, Motif.E 1 1)].map (fun t => t.1)) := ⟨by decide, by decide⟩

/-- The fresh engine with target 7 (what `McCracknsPrimeLaw(n_primes=7)`
builds), used as the C5 witness state. -/
def engineTarget7 : Engine :=
  { nPrimes := 7
    st :=
      { primes := [2, 3, 5, 7, 11, 13]
        gaps := [1, 2, 2, 4, 2]
        motifs := [(Motif.U1, 1), (Motif.U1, 2), (Motif.E 1 0, 1), (Motif.E 1 0, 2),
                   (Motif.E 1 1, 1), (Motif.E 1 0, 3)]
        runCounter := [(Motif.U1, 2), (Motif.E 1 0, 3), (Motif.E 1 1, 1)]
        regimeIdx := 2
        primorial := 30
        alphabet := [Motif.U1, Motif.E 1 0, Motif.E 1 1]
        usedMotifs := []
        regimePoints := [6] } }

/-- Witness for C5 (amended) on the fresh target-7 engine. -/
theorem c5_stream_indices_witness :
    (∀ t ∈ [((7 : Nat), (17 : Int), (4 : Int), Motif.E 1 1)],
        1 ≤ t.1 ∧ engineTarget7.st.primes.length < t.1) ∧
      List.Chain' (fun a b => a.1 < b.1) [((7 : Nat), (17 : Int), (4 : Int), Motif.E 1 1)] :=
  c5_stream_indices 100 engineTarget7 1 [(7, 17, 4, Motif.E 1 1)] (by decide)

/-- `v2go` specification: with enough fuel it extracts the exact
2-adic valuation (the quotient by that power of two is odd). -/
theorem v2go_spec : ∀ f g, 0 < g → g ≤ f →
    2 ^ v2go f g ∣ g ∧ (g / 2 ^ v2go f g) % 2 = 1 := by
  intro f
  induction f with
  | zero => intro g hg hle; omega
  | succ f ih =>
    intro g hg hle
    by_cases he : g % 2 = 0 ∧ g ≠ 0
    · rw [v2go, if_pos he]
      have hg2 : 0 < g / 2 := by omega
      have hle2 : g / 2 ≤ f := by omega
      obtain ⟨hdvd, hodd⟩ := ih (g / 2) hg2 hle2
      constructor
      · obtain ⟨c, hc⟩ := hdvd
        refine ⟨c, ?_⟩
        calc g = 2 * (g / 2) := by omega
        _ = 2 * (2 ^ v2go f (g / 2) * c) := congrArg (fun t => 2 * t) hc
        _ = 2 ^ (v2go f (g / 2) + 1) * c := by ring
      · rw [pow_succ, ← Nat.div_div_eq_div_mul, Nat.div_div_eq_div_mul, Nat.mul_comm, ← Nat.div_div_eq_div_mul]
        exact hodd
    · rw [v2go, if_neg he]
      have : g % 2 = 1 := by omega
      simpa using this

/-- `v2` specification. -/
theorem v2_spec (g : Nat) (hg : 0 < g) :
    2 ^ v2 g ∣ g ∧ (g / 2 ^ v2 g) % 2 = 1 :=
  v2go_spec g g hg (Nat.le_refl g)

/-- A power of two ANDed with its predecessor is zero. -/
theorem land_two_pow_pred (j : Nat) : Nat.land (2 ^ j) (2 ^ j - 1) = 0 := by
  apply Nat.eq_of_testBit_eq
  intro i
  show (2 ^ j &&& (2 ^ j - 1)).testBit i = Nat.testBit 0 i
  rw [Nat.testBit_land, Nat.testBit_two_pow, Nat.testBit_two_pow_sub_one, Nat.zero_testBit]
  by_cases hji : j = i
  · subst hji; simp
  · simp [hji]

/-- Doubling a number doubles the `n AND (n-1)` bit pattern. -/
theorem land_double (m : Nat) (hm : 1 ≤ m) :
    Nat.land (2 * m) (2 * m - 1) = 2 * Nat.land m (m - 1) := by
  apply Nat.eq_of_testBit_eq
  intro i
  show (2 * m &&& (2 * m - 1)).testBit i = (2 * (m &&& (m - 1))).testBit i
  cases i with
  | zero =>
    rw [Nat.testBit_land, Nat.testBit_zero, Nat.testBit_zero, Nat.testBit_zero]
    have h1 : 2 * m % 2 = 0 := by omega
    have h2 : 2 * (m &&& (m - 1)) % 2 = 0 := by omega
    simp [h1, h2]
  | succ i =>
    rw [Nat.testBit_land, Nat.testBit_succ, Nat.testBit_succ, Nat.testBit_succ]
    have h1 : 2 * m / 2 = m := by omega
    have h2 : (2 * m - 1) / 2 = m - 1 := by omega
    have h3 : 2 * (m &&& (m - 1)) / 2 = m &&& (m - 1) := by omega
    rw [h1, h2, h3, Nat.testBit_land]

/-- An odd number at least 3 ANDed with its predecessor is nonzero. -/
theorem land_odd_ne_zero (n : Nat) (h2 : 2 ≤ n) (hodd : n % 2 = 1) :
    Nat.land n (n - 1) ≠ 0 := by
  intro hz
  have hbit : ∀ i, n.testBit (i + 1) = false := by
    intro i
    have := congrArg (fun x => Nat.testBit x (i + 1)) hz
    simp only [Nat.zero_testBit] at this
    rw [show Nat.land n (n - 1) = n &&& (n - 1) from rfl, Nat.testBit_land] at this
    have hdiv : (n - 1) / 2 = n / 2 := by omega
    rw [Nat.testBit_succ, Nat.testBit_succ, hdiv, Bool.and_self] at this
    rw [Nat.testBit_succ]
    exact this
  have hhalf : n / 2 = 0 := by
    apply Nat.eq_of_testBit_eq
    intro i
    rw [Nat.zero_testBit, ← Nat.testBit_succ]
    exact hbit i
  omega

/-- `n AND (n-1) = 0` characterizes the powers of two (for `n ≥ 1`). -/
theorem land_eq_zero_pow2 : ∀ n, 1 ≤ n → Nat.land n (n - 1) = 0 → ∃ j, n = 2 ^ j := by
  intro n
  induction n using Nat.strong_induction_on with
  | _ n ih =>
    intro h1 hz
    by_cases h2 : n < 2
    · exact ⟨0, by omega⟩
    · by_cases hodd : n % 2 = 1
      · exact absurd hz (land_odd_ne_zero n (by omega) hodd)
      · have heven : n % 2 = 0 := by omega
        have hn : n = 2 * (n / 2) := by omega
        have hm : 1 ≤ n / 2 := by omega
        rw [hn, land_double (n / 2) hm] at hz
        have hz2 : Nat.land (n / 2) (n / 2 - 1) = 0 := by omega
        obtain ⟨j, hj⟩ := ih (n / 2) (by omega) hm hz2
        exact ⟨j + 1, by rw [pow_succ]; omega⟩

/-- `bitLenGo` ignores its fuel as long as there is enough of it. -/
theorem bitLenGo_fuel : ∀ f f' n, n ≤ f → n ≤ f' → bitLenGo f n = bitLenGo f' n := by
  intro f
  induction f with
  | zero =>
    intro f' n h h'
    have : n = 0 := by omega
    subst this
    cases f' <;> rfl
  | succ f ih =>
    intro f' n h h'
    by_cases h0 : n = 0
    · subst h0; cases f' <;> rfl
    · have h1 : 1 ≤ n := by omega
      cases f' with
      | zero => omega
      | succ f'' =>
        rw [bitLenGo, bitLenGo, if_neg h0, if_neg h0]
        have := ih f'' (n / 2) (by omega) (by omega)
        rw [this]

/-- The bit length of `2^j` is `j + 1`. -/
theorem bitLength_two_pow : ∀ j, bitLength (2 ^ j) = j + 1 := by
  intro j
  induction j with
  | zero => rfl
  | succ j ih =>
    have hpos : 1 ≤ 2 ^ (j + 1) := Nat.one_le_two_pow
    unfold bitLength
    obtain ⟨f, hf⟩ : ∃ f, 2 ^ (j + 1) = f + 1 := ⟨2 ^ (j + 1) - 1, by omega⟩
    rw [hf, bitLenGo, if_neg (by omega)]
    have hhalf : (f + 1) / 2 = 2 ^ j := by
      rw [← hf, pow_succ, Nat.mul_comm]
      omega
    rw [hhalf]
    have h2j : 2 ^ j ≤ f := by
      have : 2 ^ j < 2 ^ (j + 1) := by
        have := Nat.one_le_two_pow (n := j)
        rw [pow_succ]
        omega
      omega
    rw [bitLenGo_fuel f (2 ^ j) (2 ^ j) h2j (Nat.le_refl _)]
    rw [show bitLenGo (2 ^ j) (2 ^ j) = bitLength (2 ^ j) from rfl, ih]

/-- Every positive even gap is classified without an error, and its
label decodes back to the gap (the round-trip core of C2). -/
theorem canonicalMotif_even_pos (n : Nat) (h2 : 2 ≤ n) (he : n % 2 = 0) :
    ∃ m, canonicalMotif (n : Int) = Except.ok m ∧ gapOf m = some (n : Int) := by
  have htn : ((n : Int)).toNat = n := by omega
  unfold canonicalMotif
  rw [if_neg (show ¬((n : Int) = 1) by omega)]
  rw [if_neg (show ¬((n : Int) % 2 ≠ 0) by omega)]
  rw [htn]
  by_cases hland : Nat.land n (n - 1) = 0
  · rw [if_pos ⟨by positivity, hland⟩]
    obtain ⟨j, hj⟩ := land_eq_zero_pow2 n (by omega) hland
    have hj1 : 1 ≤ j := by
      by_contra hj0
      have : j = 0 := by omega
      rw [this, pow_zero] at hj
      omega
    refine ⟨_, rfl, ?_⟩
    rw [hj, bitLength_two_pow j]
    unfold gapOf
    dsimp only
    rw [if_pos (show (0 : Int) ≤ (((j + 1 : Nat) : Int)) - 1 - 1 + 1 by push_cast; omega)]
    have hx : ((((j + 1 : Nat) : Int)) - 1 - 1 + 1).toNat = j := by push_cast; omega
    rw [hx]
    push_cast
    rfl
  · rw [if_neg (show ¬(0 ≤ (n : Int) ∧ Nat.land n (n - 1) = 0) from fun hc => hland hc.2)]
    dsimp only
    rw [Int.natAbs_ofNat]
    obtain ⟨hdvd, hmodd⟩ := v2_spec n (by omega)
    obtain ⟨m, hm⟩ := hdvd
    have hqm : n / 2 ^ v2 n = m := by
      nth_rewrite 1 [hm]
      exact Nat.mul_div_cancel_left m (by positivity)
    rw [hqm] at hmodd
    have hm0 : 1 ≤ m := by
      rcases Nat.eq_zero_or_pos m with h0 | h1
      · rw [h0, Nat.mul_zero] at hm; omega
      · exact h1
    have hm1 : m ≠ 1 := by
      intro h1
      rw [h1, Nat.mul_one] at hm
      rw [hm] at hland
      exact hland (land_two_pow_pred (v2 n))
    have hm3 : 3 ≤ m := by omega
    have hk1 : 1 ≤ v2 n := by
      by_contra h0
      have hk0 : v2 n = 0 := by omega
      rw [hk0, pow_zero, Nat.one_mul] at hm
      omega
    have hoddInt : ((n : Int)) / (2 : Int) ^ v2 n = (m : Int) := by
      nth_rewrite 1 [hm]
      push_cast
      rw [Int.mul_ediv_cancel_left]
      positivity
    rw [hoddInt]
    rw [if_neg (show ¬((m : Int) < 3 ∨ (m : Int) % 2 = 0) by omega)]
    refine ⟨_, rfl, ?_⟩
    unfold gapOf
    dsimp only
    rw [if_neg (show ¬(v2 n + 1 = 1) by omega), if_neg (show ¬(v2 n + 1 = 0) by omega)]
    congr 1
    have hsub : v2 n + 1 - 1 = v2 n := by omega
    rw [hsub]
    have hdvd2 : (2 : Int) ∣ ((m : Int) - 3) := by
      have hcast : (m : Int) % 2 = 1 := by omega
      omega
    have h2x : 2 * (((m : Int) - 3) / 2) + 3 = (m : Int) := by
      rw [Int.mul_ediv_cancel' hdvd2]
      ring
    rw [h2x]
    nth_rewrite 2 [hm]
    push_cast
    ring

/-- C2: for every gap the classifier itself accepts and labels (gap 1,
or a positive even gap), decoding the produced label returns the
original gap. -/
theorem c2_roundTrip (g : Int) (hg : g = 1 ∨ (0 < g ∧ g % 2 = 0)) :
    ∃ m, canonicalMotif g = Except.ok m ∧ gapOf m = some g := by
  rcases hg with rfl | ⟨hpos, heven⟩
  · exact ⟨Motif.U1, rfl, rfl⟩
  · have hn : g = ((g.toNat : Nat) : Int) := by omega
    rw [hn]
    exact canonicalMotif_even_pos g.toNat (by omega) (by omega)

/-- Witness for C2 at the concrete gap 6 (`E2.0`). -/
theorem c2_roundTrip_witness :
    ∃ m, canonicalMotif 6 = Except.ok m ∧ gapOf m = some 6 :=
  c2_roundTrip 6 (Or.inr ⟨by norm_num, by norm_num⟩)

/-- Counterexample to C4 as stated: the gap 0 is not expressible as
`2^k*(2x+3)` (nor is it 1 or a positive power of two), yet
`canonical_motif(0)` does not raise — it returns the malformed label
`"E1.-2"`, which `_gap` cannot even decode (Python raises on the
negative shift). -/
theorem c4_cex :
    canonicalMotif 0 = Except.ok (Motif.E 1 (-2)) ∧ gapOf (Motif.E 1 (-2)) = none :=
  ⟨rfl, rfl⟩

/-- C4 (amended): `canonical_motif` raises exactly on the odd gaps
other than 1 and on the negative even gaps; `g = 1` yields `U1`, every
even `g ≥ 2` yields a label without raising, and `g = 0` yields the
malformed label `E1.-2` without raising. -/
theorem c4_invalid_gap (g : Int) :
    (canonicalMotif g = Except.error () ↔ ((g % 2 ≠ 0 ∧ g ≠ 1) ∨ (g % 2 = 0 ∧ g < 0))) ∧
    (g = 1 → canonicalMotif g = Except.ok Motif.U1) := by
  constructor
  · constructor
    · intro hu
      by_cases h1 : g = 1
      · rw [h1] at hu
        exact Except.noConfusion (show Except.ok Motif.U1 = Except.error () from hu)
      · by_cases hodd : g % 2 ≠ 0
        · exact Or.inl ⟨hodd, h1⟩
        · have heven : g % 2 = 0 := by omega
          refine Or.inr ⟨heven, ?_⟩
          by_contra hge
          have hge' : 0 ≤ g := by omega
          by_cases h0 : g = 0
          · rw [h0] at hu
            exact Except.noConfusion (show Except.ok (Motif.E 1 (-2)) = Except.error () from hu)
          · have h2 : 2 ≤ g.toNat := by omega
            obtain ⟨m, hok, _⟩ := canonicalMotif_even_pos g.toNat h2 (by omega)
            have hgg : ((g.toNat : Nat) : Int) = g := by omega
            rw [hgg] at hok
            rw [hok] at hu
            exact Except.noConfusion hu
    · intro hcase
      rcases hcase with ⟨hodd, hne1⟩ | ⟨heven, hneg⟩
      · unfold canonicalMotif
        rw [if_neg hne1, if_pos hodd]
      · unfold canonicalMotif
        rw [if_neg (show ¬(g = 1) by omega)]
        rw [if_neg (show ¬(g % 2 ≠ 0) by omega)]
        rw [if_neg (show ¬(0 ≤ g ∧ Nat.land g.toNat (g.toNat - 1) = 0) from
          fun hc => absurd hc.1 (by omega))]
        dsimp only
        have hlt : g / (2 : Int) ^ v2 g.natAbs < 3 :=
          lt_trans (Int.ediv_neg' hneg (by positivity)) (by norm_num)
        rw [if_pos (Or.inl hlt)]
  · intro h1
    rw [h1]
    rfl

/-- Witness for C4 (amended) at the concrete gap 1. -/
theorem c4_invalid_gap_witness : canonicalMotif 1 = Except.ok Motif.U1 :=
  (c4_invalid_gap 1).2 rfl

/-- Strictly increasing list of integers (spec wording for the prime
sequence invariant). -/
def strictIncInt : List Int → Bool
  | [] => true
  | [_] => true
  | a :: b :: r => decide (a < b) && strictIncInt (b :: r)

/-- Strictly increasing list of naturals (spec wording for regime
points). -/
def strictIncNat : List Nat → Bool
  | [] => true
  | [_] => true
  | a :: b :: r => decide (a < b) && strictIncNat (b :: r)

/-- `gaps[i] = primes[i+1] - primes[i]` with `len(gaps) = len(primes) - 1`
(spec wording for the gap sequence invariant). -/
def gapsAligned : List Int → List Int → Bool
  | [], [] => true
  | [_], [] => true
  | p0 :: p1 :: ps, g :: gs => decide (g = p1 - p0) && gapsAligned (p1 :: ps) gs
  | _, _ => false

/-- The conjunction of the data-model invariants of C7, C8 and C10 on
one engine state. -/
def stateInvariants (s : EState) : Bool :=
  strictIncInt s.primes &&
  gapsAligned s.primes s.gaps &&
  decide (s.regimeIdx < s.primes.length) &&
  decide (s.primorial = (s.primes.take (s.regimeIdx + 1)).foldl (· * ·) 1) &&
  strictIncNat s.regimePoints &&
  s.regimePoints.all (fun x => decide (x ≤ s.primes.length))

/-- Run `k` single steps from `s`, checking `stateInvariants` before
each step and on the final state. -/
def checkRun (fuel : Nat) : Nat → EState → Bool
  | 0, s => stateInvariants s
  | k + 1, s =>
    stateInvariants s &&
      match engineStep fuel (Call.singleStep s) with
      | some (Res.st s') => checkRun fuel k s'
      | _ => false

set_option maxRecDepth 10000 in
/-- Computational evidence for C7, C8 and C10 (their universally
quantified forms are settled separately): from the fresh engine the
invariants hold after construction and after each of the first 94
steps (through the 100th prime). -/
theorem stateInvariants_first100 :
    (match initEngine 100 50 with
      | some e => checkRun 2000 94 e.st
      | none => false) = true := by decide
